import Mathlib

/-!
Shallow embedding of the Planning Poker consensus/estimation core.

Sources embedded here:
* `src/voting_logic.py` — consensus engine (`check_consensus`,
  `calculate_alternative_value`, `FIBONACCI`);
* `src/ai/estimation.py` — `extract_story_points`;
* `src/ai/chunking.py` — `FixedSizeChunking.chunk`, `SentenceChunking.chunk`
  and `StoryChunking.chunk` with `_parse_story_sections`;
* `src/ai/preprocessing.py` — `DataPreprocessor.clean_text`;
* `src/ai/embeddings.py` — `EmbeddingGenerator.cosine_similarity`,
  `find_similar_chunks`, `EmbeddingProvider.encode_embedding` /
  `decode_embedding`.

Conventions: Python ints are `Int` (or `Nat` where they are always
nonnegative in the source), text is `List Char`, Python floats are `ℝ`,
a raised exception is `none`.  Python's `Counter.most_common(1)` returns
the value with the largest count, ties broken by first occurrence in the
list (insertion order).
-/

namespace PlanningPoker

/-- `FIBONACCI = [0, 1, 2, 3, 5, 8, 13, 21, 34, 55, 89]` from voting_logic.py. -/
def FIBONACCI : List Int := [0, 1, 2, 3, 5, 8, 13, 21, 34, 55, 89]

/-- The distinct values of a list, in order of first occurrence
(the iteration order of a Python `Counter` built from the list). -/
def firstOccs : List Int → List Int
  | [] => []
  | x :: xs => x :: (firstOccs xs).filter (fun y => decide (y ≠ x))

/-- `Counter(l).most_common(1)[0][0]`: a value of maximal count, ties broken
by first occurrence.  Defaults to 0 on the empty list (never used there). -/
def mostCommonD (l : List Int) : Int :=
  match firstOccs l with
  | [] => 0
  | x :: xs => xs.foldl (fun b y => if l.count b < l.count y then y else b) x

/-- Python `max` over a nonempty list (defaults to 0 on `[]`, never used there). -/
def maxOf : List Int → Int
  | [] => 0
  | x :: xs => xs.foldl max x

/-- Descending-by-`≤` relation used to embed `sorted(..., reverse=True)`. -/
def geInt (x y : Int) : Prop := y ≤ x

instance : DecidableRel geInt := fun x y => inferInstanceAs (Decidable (y ≤ x))

instance : IsTotal Int geInt := ⟨fun a b => (le_total b a).imp id id⟩

instance : IsTrans Int geInt := ⟨fun _ _ _ h1 h2 => le_trans h2 h1⟩

/-- `sorted(set(l), reverse=True)`: distinct values in descending order. -/
def sortedUniqueDesc (l : List Int) : List Int :=
  (firstOccs l).insertionSort geInt

/-- `calculate_alternative_value` from voting_logic.py. -/
def calculate_alternative_value (l : List Int) (highest : Int) : Option Int :=
  if l.length ≤ 1 then none
  else
    let m := mostCommonD l
    if m ≠ highest ∧ 1 < l.count m then some m
    else
      let su := sortedUniqueDesc l
      if 2 ≤ su.length then su[1]? else none

/-- Python `list.index`, as a partial lookup: index of the first occurrence
(`None` models the `ValueError` branch). -/
def listIndex? (a : Int) : List Int → Option Nat
  | [] => none
  | x :: xs => if x = a then some 0 else (listIndex? a xs).map (· + 1)

/-- The near-consensus test inside `check_consensus` (lines 74–92):
returns `some m` when the most common value `m` accounts for all votes but
one and the single outlier sits next to `m` on the `FIBONACCI` scale. -/
def nearCheck (l : List Int) : Option Int :=
  let m := mostCommonD l
  if l.count m = l.length - 1 then
    match (firstOccs l).find? (fun x => decide (x ≠ m)) with
    | some o =>
      match listIndex? m FIBONACCI, listIndex? o FIBONACCI with
      | some i, some j => if ((i : Int) - (j : Int)).natAbs = 1 then some m else none
      | _, _ => none
    | none => none
  else none

/-- The divergence branch of `check_consensus` (line 94–97). -/
def divergenceResult (l : List Int) : String × Option Int × Option Int :=
  ("divergence", some (maxOf l), calculate_alternative_value l (maxOf l))

/-- `check_consensus` from voting_logic.py. -/
def check_consensus (l : List Int) : String × Option Int × Option Int :=
  if l = [] then ("divergence", none, none)
  else if (firstOccs l).length = 1 then ("consensus", some (l.headD 0), none)
  else if 2 ≤ l.length then
    match nearCheck l with
    | some m => ("near_consensus", some m, none)
    | none => divergenceResult l
  else divergenceResult l

/-!
Embedding of `extract_story_points` from `src/ai/estimation.py`.
Text is embedded as `List Char`.  `re.search(r'STORY POINTS:\s*(\d+)', text,
re.IGNORECASE)` scans for the leftmost case-insensitive occurrence of the
label followed by optional whitespace and a maximal digit run (the lazy/greedy
structure of the pattern degenerates to exactly this, since `\s` and `\d` are
disjoint).  The fallback `re.search(r'^\s*(\d+)', text)` anchors at the start.
-/

/-- Python regex `\s` (ASCII part), also used by `str.strip`. -/
def isPySpace (c : Char) : Bool :=
  c == ' ' || c == '\t' || c == '\n' || c == '\r' || c == '\x0b' || c == '\x0c'

/-- Case-insensitive prefix match of a lowercase pattern against text. -/
def matchCI : List Char → List Char → Bool
  | [], _ => true
  | _ :: _, [] => false
  | p :: ps, c :: cs => p == c.toLower && matchCI ps cs

/-- Numeric value of a digit run (`int(match.group(1))`). -/
def digitsToNat (ds : List Char) : Nat :=
  ds.foldl (fun n c => n * 10 + (c.toNat - '0'.toNat)) 0

def pointsLabel : List Char := "story points:".toList

/-- Leftmost match of `STORY POINTS:\s*(\d+)` (case-insensitive), returning
the captured number. -/
def searchLabeled : List Char → Option Nat
  | [] => none
  | c :: cs =>
    if matchCI pointsLabel (c :: cs) then
      let rest := (c :: cs).drop pointsLabel.length
      let ds := (rest.dropWhile isPySpace).takeWhile Char.isDigit
      if ds.isEmpty then searchLabeled cs else some (digitsToNat ds)
    else searchLabeled cs

/-- Match of `^\s*(\d+)`: a leading integer after optional whitespace. -/
def leadingInt (l : List Char) : Option Nat :=
  let ds := (l.dropWhile isPySpace).takeWhile Char.isDigit
  if ds.isEmpty then none else some (digitsToNat ds)

/-- The `fibonacci` list local to `extract_story_points` (no 0, unlike
the voting module's `FIBONACCI`). -/
def fibScale : List Nat := [1, 2, 3, 5, 8, 13, 21, 34, 55, 89]

/-- `extract_story_points` from estimation.py. -/
def extract_story_points (l : List Char) : Nat :=
  match searchLabeled l with
  | some points =>
    if points ∈ fibScale then points
    else
      match fibScale.find? (fun f => decide (points ≤ f)) with
      | some f => f
      | none => fibScale.getLastD 0
  | none =>
    match leadingInt l with
    | some m => m
    | none => 5

/-!
Embedding of `FixedSizeChunking.chunk` from `src/ai/chunking.py`.
Python indices may go negative, so window positions are `Int` and slicing /
`str.rfind` carry Python's negative-index normalisation.  The `while` loop
is embedded with explicit fuel: `none` means the fuel ran out with the loop
guard still true.
-/

/-- Normalise a Python slice index against a length (negative counts from
the end, then clamps to `[0, n]`). -/
def pyNorm (n : Nat) (i : Int) : Nat :=
  min ((if i < 0 then (n : Int) + i else i).toNat) n

/-- Python `text[i:j]` for a `List Char` text. -/
def pySlice (l : List Char) (i j : Int) : List Char :=
  (l.take (pyNorm l.length j)).drop (pyNorm l.length i)

/-- Largest index in `[i', j')` holding a space, else `-1`
(helper for `str.rfind(' ', i, j)`); the second argument scans downward. -/
def rfindSpaceAux (l : List Char) (lo : Nat) : Nat → Int
  | 0 => -1
  | k + 1 => if lo ≤ k ∧ l.getD k '\x00' = ' ' then (k : Int) else rfindSpaceAux l lo k

/-- Python `text.rfind(' ', i, j)`. -/
def pyRfindSpace (l : List Char) (i j : Int) : Int :=
  rfindSpaceAux l (pyNorm l.length i) (pyNorm l.length j)

/-- Python `str.strip()`: drop leading and trailing whitespace. -/
def pyStrip (l : List Char) : List Char :=
  ((l.dropWhile isPySpace).reverse.dropWhile isPySpace).reverse

/-- One emitted chunk of `FixedSizeChunking.chunk`
(`{text, index, start_pos, end_pos}`). -/
structure FChunk where
  text : List Char
  index : Nat
  start_pos : Int
  end_pos : Int
deriving DecidableEq, Repr

/-- The `while start < len(text)` loop of `FixedSizeChunking.chunk`, with
fuel.  `none`: the fuel was exhausted before the loop guard went false. -/
def fixedChunkLoop (cs ov : Int) (text : List Char) :
    Nat → Int → Nat → List FChunk → Option (List FChunk)
  | 0, start, _, acc =>
    if start < (text.length : Int) then none else some acc
  | fuel + 1, start, index, acc =>
    if start < (text.length : Int) then
      let e0 := start + cs
      let e :=
        if e0 < (text.length : Int) then
          let ls := pyRfindSpace text start e0
          if start < ls then ls else e0
        else e0
      let ct := pyStrip (pySlice text start e)
      let index' := if ct = [] then index else index + 1
      let acc' := if ct = [] then acc else acc ++ [⟨ct, index, start, e⟩]
      fixedChunkLoop cs ov text fuel (if 0 < ov then e - ov else e) index' acc'
    else some acc

/-- `FixedSizeChunking(chunk_size, overlap).chunk(text)` with fuel
(the empty-text guard returns `[]` immediately). -/
def fixedSizeChunk (cs ov : Int) (text : List Char) (fuel : Nat) :
    Option (List FChunk) :=
  if text = [] then some [] else fixedChunkLoop cs ov text fuel 0 0 []

/-- The loop never exits on this configuration and text: no fuel suffices,
from any index/accumulator state reached at window start 0. -/
def fixedSizeChunkDiverges (cs ov : Int) (text : List Char) : Prop :=
  ∀ (fuel : Nat) (index : Nat) (acc : List FChunk),
    fixedChunkLoop cs ov text fuel 0 index acc = none

/-!
Embedding of `DataPreprocessor.clean_text` from `src/ai/preprocessing.py`.
`html.unescape` is a Python standard-library call outside this repository;
it is abstracted as an arbitrary text transformation `unesc`, which only
strengthens the statements (they hold for every entity decoder).
-/

/-- `re.sub(r'<[^>]+>', '', text)`: drop every `<`…`>` span with at least
one non-`>` character inside; an unmatched `<` is kept. -/
def stripTags : List Char → List Char
  | [] => []
  | c :: rest =>
    if c = '<' then
      let k := (rest.takeWhile (fun d => decide (d ≠ '>'))).length
      if 1 ≤ k ∧ k < rest.length then stripTags (rest.drop (k + 1))
      else c :: stripTags rest
    else c :: stripTags rest
termination_by l => l.length
decreasing_by
  · simp only [List.length_drop, List.length_cons]
    omega
  · simp only [List.length_cons]
    omega
  · simp only [List.length_cons]
    omega

/-- `re.sub(r'\s+', ' ', text)`: collapse every whitespace run to one space. -/
def collapseWS : List Char → List Char
  | [] => []
  | [c] => [if isPySpace c then ' ' else c]
  | a :: b :: rest =>
    if isPySpace a && isPySpace b then collapseWS (b :: rest)
    else (if isPySpace a then ' ' else a) :: collapseWS (b :: rest)

/-- `DataPreprocessor.clean_text(text, preserve_structure)`; `unesc` stands
for `html.unescape`. -/
def clean_text (unesc : List Char → List Char) (text : List Char)
    (preserveStructure : Bool) : List Char :=
  if text = [] then []
  else
    let t1 := stripTags (unesc text)
    let t2 :=
      if preserveStructure then
        let lines := (t1.splitOn '\n').map (fun ln => collapseWS (pyStrip ln))
        List.intercalate ['\n'] (lines.filter (fun ln => decide (ln ≠ [])))
      else collapseWS t1
    pyStrip t2

/-- Whitespace is fully collapsed: every whitespace character is a plain
space and no two spaces are adjacent. -/
def noCollapsedWS (l : List Char) : Prop :=
  (∀ c ∈ l, isPySpace c = true → c = ' ')
  ∧ List.Chain' (fun a b => ¬(a = ' ' ∧ b = ' ')) l

/-!
Embedding of `EmbeddingGenerator.cosine_similarity` and
`find_similar_chunks`, and of `EmbeddingProvider.encode_embedding` /
`decode_embedding`, from `src/ai/embeddings.py`.

Python floats are embedded as `ℝ` (`x ** 0.5` on a nonnegative argument is
`Real.sqrt`).  A raised `ValueError` is `none`.  Python's stable
`list.sort(key=..., reverse=True)` is a stable descending insertion sort.
For the byte round-trip, vector elements are modelled as float32 bit
patterns (Nat below 2^32) and `struct.pack('{n}f', ...)` as 4-byte
little-endian words, so "within float32 precision" becomes exactness.
-/

/-- `sum(a * b for a, b in zip(e1, e2))`. -/
def dotL (a b : List ℝ) : ℝ := (List.zipWith (fun x y => x * y) a b).sum

/-- `sum(a * a for a in e)`. -/
def sumSq (a : List ℝ) : ℝ := (a.map (fun x => x * x)).sum

/-- `sum(a * a for a in e) ** 0.5`. -/
noncomputable def magnitudeL (a : List ℝ) : ℝ := Real.sqrt (sumSq a)

/-- `EmbeddingGenerator.cosine_similarity` (lines 407–435); `none` models
the raised dimension-mismatch `ValueError`. -/
noncomputable def cosine_similarity (a b : List ℝ) : Option ℝ :=
  if a.length ≠ b.length then none
  else if magnitudeL a = 0 ∨ magnitudeL b = 0 then some 0
  else some (dotL a b / (magnitudeL a * magnitudeL b))

/-- Descending order on scored candidates, by similarity. -/
def simRel (x y : Nat × ℝ) : Prop := y.2 ≤ x.2

noncomputable instance : DecidableRel simRel :=
  fun x y => inferInstanceAs (Decidable (y.2 ≤ x.2))

instance : IsTotal (Nat × ℝ) simRel := ⟨fun a b => (le_total b.2 a.2).imp id id⟩

instance : IsTrans (Nat × ℝ) simRel := ⟨fun _ _ _ h1 h2 => le_trans h2 h1⟩

/-- `similarities.sort(key=lambda x: x[1], reverse=True)`: a stable
descending sort (stable sorts by one key are unique, so insertion sort
embeds Python's sort). -/
noncomputable def sortSims (l : List (Nat × ℝ)) : List (Nat × ℝ) :=
  l.insertionSort simRel

/-- The scoring/filter loop of `find_similar_chunks`: similarity of each
candidate in order, keeping those `≥ min_similarity`; a dimension mismatch
propagates as `none`. -/
noncomputable def collectSims (q : List ℝ) (ms : ℝ) :
    List (Nat × List ℝ) → Option (List (Nat × ℝ))
  | [] => some []
  | (i, v) :: rest =>
    match cosine_similarity q v with
    | none => none
    | some s =>
      match collectSims q ms rest with
      | none => none
      | some tl => some (if ms ≤ s then (i, s) :: tl else tl)

/-- `EmbeddingGenerator.find_similar_chunks` (lines 437–467). -/
noncomputable def find_similar_chunks (q : List ℝ) (cands : List (Nat × List ℝ))
    (topK : Nat) (ms : ℝ) : Option (List (Nat × ℝ)) :=
  match collectSims q ms cands with
  | none => none
  | some sims => some ((sortSims sims).take topK)

/-- One float32 bit pattern as 4 little-endian bytes
(one element of `struct.pack(f'{n}f', ...)`). -/
def f32ToBytes (x : Nat) : List Nat :=
  [x % 256, x / 256 % 256, x / 65536 % 256, x / 16777216 % 256]

/-- `EmbeddingProvider.encode_embedding`: concatenated 4-byte words. -/
def encode_embedding : List Nat → List Nat
  | [] => []
  | x :: xs => f32ToBytes x ++ encode_embedding xs

/-- Split a byte string into 4-byte groups (`struct.unpack` consumes
exactly `num_floats * 4` bytes). -/
def groups4 : List Nat → List (List Nat)
  | b0 :: b1 :: b2 :: b3 :: rest => [b0, b1, b2, b3] :: groups4 rest
  | _ => []

/-- Reassemble a 4-byte little-endian word. -/
def word32OfBytes : List Nat → Nat
  | [b0, b1, b2, b3] => b0 + 256 * b1 + 65536 * b2 + 16777216 * b3
  | _ => 0

/-- `EmbeddingProvider.decode_embedding`: the element count is
`len(bytes) // 4`, with no length argument; `struct.unpack` errors
(`none`) when the byte length is not a multiple of 4. -/
def decode_embedding (bs : List Nat) : Option (List Nat) :=
  if bs.length % 4 = 0 then some ((groups4 bs).map word32OfBytes) else none

/-!
Embedding of `StoryChunking` (and the `SentenceChunking` it delegates to)
from `src/ai/chunking.py`.  `_parse_story_sections` uses patterns of the
shape `Label:\s*(.+?)(?=Stop1|…|$)` with `re.DOTALL | re.IGNORECASE`.
Backtracking order: the engine tries match start positions left to right;
at a fixed start, `\s*` greedily from the longest run downward, and for
each such split the lazy group grows until the lookahead matches.  With
no `MULTILINE`, `$` matches at the end of the text or just before a final
newline.
-/

/-- The lookahead `(?=\n|Stop1|…|$)` tested at position `r` (`\n` only for
the title pattern). -/
def lookaheadAt (stops : List (List Char)) (nlStop : Bool) (text : List Char)
    (r : Nat) : Bool :=
  (nlStop && (text.getD r '\x00' == '\n'))
  || stops.any (fun s => matchCI s (text.drop r))
  || (r == text.length)
  || ((r + 1 == text.length) && (text.getD r '\x00' == '\n'))

/-- Smallest position `r ∈ [lo, len]` where the lookahead matches (the
lazy group stops as early as possible). -/
def findR (stops : List (List Char)) (nlStop : Bool) (text : List Char)
    (lo : Nat) : Option Nat :=
  (List.range (text.length + 1)).find?
    (fun r => decide (lo ≤ r) && lookaheadAt stops nlStop text r)

/-- Try whitespace-run lengths `k, k-1, …, 0` (greedy `\s*` backtracking);
for the first `k` admitting a lookahead position `r ≥ q + k + 1`, return
`(k, r)`. -/
def tryKs (stops : List (List Char)) (nlStop : Bool) (text : List Char)
    (q : Nat) : Nat → Option (Nat × Nat)
  | 0 => (findR stops nlStop text (q + 1)).map (fun r => (0, r))
  | k + 1 =>
    match findR stops nlStop text (q + (k + 1) + 1) with
    | some r => some (k + 1, r)
    | none => tryKs stops nlStop text q k

/-- Match `label\s*(.+?)(?=…)` at start position `p`; returns the group. -/
def matchSectionAt (label : List Char) (stops : List (List Char)) (nlStop : Bool)
    (text : List Char) (p : Nat) : Option (List Char) :=
  if matchCI label (text.drop p) then
    let q := p + label.length
    let kmax := ((text.drop q).takeWhile isPySpace).length
    match tryKs stops nlStop text q kmax with
    | some (k, r) => some ((text.take r).drop (q + k))
    | none => none
  else none

/-- `re.search`: the leftmost position with a full match wins. -/
def searchSection (label : List Char) (stops : List (List Char)) (nlStop : Bool)
    (text : List Char) : Option (List Char) :=
  (List.range text.length).findSome? (fun p => matchSectionAt label stops nlStop text p)

/-- `sections['title']` of `_parse_story_sections` (already stripped). -/
def parseTitle (text : List Char) : Option (List Char) :=
  (searchSection "title:".toList
    ["description:".toList, "voting:".toList, "comments:".toList] true text).map pyStrip

/-- `sections['description']`. -/
def parseDescription (text : List Char) : Option (List Char) :=
  (searchSection "description:".toList
    ["voting:".toList, "comments:".toList] false text).map pyStrip

/-- `sections['voting']`. -/
def parseVoting (text : List Char) : Option (List Char) :=
  (searchSection "voting:".toList ["comments:".toList] false text).map pyStrip

/-- `sections['comments']`. -/
def parseComments (text : List Char) : Option (List Char) :=
  (searchSection "comments:".toList [] false text).map pyStrip

/-- Python truthiness of `sections.get(name)`: present and nonempty. -/
def secNonempty : Option (List Char) → Bool
  | some t => !t.isEmpty
  | none => false

/-- Sentence-ending punctuation class `[.!?]`. -/
def isSentPunct (c : Char) : Bool := c == '.' || c == '!' || c == '?'

/-- `re.split(r'[.!?]+[\s\n]+', text)`: a delimiter is a punctuation run
followed by a whitespace run (both maximal); `cur` holds the current part
reversed. -/
def splitSentGo : List Char → List Char → List (List Char)
  | [], cur => [cur.reverse]
  | c :: rest, cur =>
    if isSentPunct c = true then
      let pl := (rest.takeWhile isSentPunct).length
      let after := rest.drop pl
      let wsrun := after.takeWhile isPySpace
      if wsrun.isEmpty then
        splitSentGo after ((c :: rest.takeWhile isSentPunct).reverse ++ cur)
      else
        cur.reverse :: splitSentGo (after.drop wsrun.length) []
    else splitSentGo rest (c :: cur)
termination_by l _ => l.length
decreasing_by
  · have h1 : (rest.takeWhile isSentPunct).length ≤ rest.length :=
      (List.takeWhile_sublist isSentPunct).length_le
    simp only [List.length_drop, List.length_cons]
    omega
  · have h1 : (rest.takeWhile isSentPunct).length ≤ rest.length :=
      (List.takeWhile_sublist isSentPunct).length_le
    simp only [List.length_drop, List.length_cons]
    omega
  · simp only [List.length_cons]
    omega

/-- `SentenceChunking._split_sentences`: split, strip, drop empties. -/
def splitSentences (text : List Char) : List (List Char) :=
  ((splitSentGo text []).map pyStrip).filter (fun s => !s.isEmpty)

/-- One chunk of `SentenceChunking.chunk` (`{text, index, sentence_count}`). -/
structure SentC where
  text : List Char
  index : Nat
  sentence_count : Nat
deriving DecidableEq, Repr

/-- `' '.join(parts)`. -/
def joinSpace (parts : List (List Char)) : List Char :=
  List.intercalate [' '] parts

/-- The loop body of `SentenceChunking.chunk`: state is
(emitted chunks, current sentences, current length, next index). -/
def sentStep (maxS maxSize : Nat) (st : List SentC × List (List Char) × Nat × Nat)
    (s : List Char) : List SentC × List (List Char) × Nat × Nat :=
  let (chunks, cur, curLen, index) := st
  if (maxS ≤ cur.length ∨ maxSize < curLen + s.length) ∧ cur ≠ [] then
    let ct := pyStrip (joinSpace cur)
    let chunks' := if ct = [] then chunks else chunks ++ [⟨ct, index, cur.length⟩]
    let index' := if ct = [] then index else index + 1
    (chunks', [s], s.length, index')
  else
    (chunks, cur ++ [s], curLen + s.length, index)

/-- `SentenceChunking(max_sentences, max_chunk_size).chunk(text)`. -/
def sentenceChunk (maxS maxSize : Nat) (text : List Char) : List SentC :=
  if text = [] then []
  else
    let st := (splitSentences text).foldl (sentStep maxS maxSize) ([], [], 0, 0)
    let (chunks, cur, _, index) := st
    if cur ≠ [] then
      let ct := pyStrip (joinSpace cur)
      if ct = [] then chunks else chunks ++ [⟨ct, index, cur.length⟩]
    else chunks

/-- One chunk of `StoryChunking.chunk` (`section` is a Lean keyword, hence
`section_label`). -/
structure SChunk where
  text : List Char
  index : Nat
  section_label : String
  sub_index : Option Nat
deriving DecidableEq, Repr

/-- The chunk payloads of `StoryChunking.chunk`, in emission order, before
indexing: title, description (possibly split), voting, comments. -/
def storyPreChunks (chunkDesc : Bool) (maxDescSize : Nat) (text : List Char) :
    List (String × List Char × Option Nat) :=
  (match parseTitle text with
   | some t => if t ≠ [] then [("title", "Title: ".toList ++ t, none)] else []
   | none => [])
  ++ (match parseDescription text with
      | some d =>
        if d ≠ [] then
          if chunkDesc ∧ maxDescSize < d.length then
            (sentenceChunk 5 maxDescSize d).map
              (fun sc => ("description", "Description: ".toList ++ sc.text, some sc.index))
          else [("description", "Description: ".toList ++ d, none)]
        else []
      | none => [])
  ++ (match parseVoting text with
      | some v => if v ≠ [] then [("voting", "Voting: ".toList ++ v, none)] else []
      | none => [])
  ++ (match parseComments text with
      | some cm => if cm ≠ [] then [("comments", "Comments: ".toList ++ cm, none)] else []
      | none => [])

/-- `StoryChunking(chunk_description, max_description_chunk_size).chunk(text)`:
the running `index` counter is the emission position. -/
def storyChunk (chunkDesc : Bool) (maxDescSize : Nat) (text : List Char) :
    List SChunk :=
  if text = [] then []
  else
    (storyPreChunks chunkDesc maxDescSize text).enum.map
      (fun p => ⟨p.2.2.1, p.1, p.2.1, p.2.2.2⟩)

/-! Basic lemmas about the consensus-engine helpers. -/

theorem mem_firstOccs {y : Int} {l : List Int} : y ∈ firstOccs l ↔ y ∈ l := by
  induction l with
  | nil => simp [firstOccs]
  | cons x xs ih =>
    simp only [firstOccs, List.mem_cons, List.mem_filter, decide_eq_true_eq]
    by_cases hx : y = x
    · simp [hx]
    · simp [hx, ih]

theorem nodup_firstOccs (l : List Int) : (firstOccs l).Nodup := by
  induction l with
  | nil => simp [firstOccs]
  | cons x xs ih =>
    refine List.Nodup.cons ?_ (ih.filter _)
    intro hx
    rcases List.mem_filter.1 hx with ⟨_, hne⟩
    simp at hne

theorem length_firstOccs_le (l : List Int) : (firstOccs l).length ≤ l.length := by
  induction l with
  | nil => simp [firstOccs]
  | cons x xs ih =>
    have := List.length_filter_le (fun y => decide (y ≠ x)) (firstOccs xs)
    simp only [firstOccs, List.length_cons]
    omega

theorem firstOccs_eq_nil {l : List Int} : firstOccs l = [] ↔ l = [] := by
  cases l <;> simp [firstOccs]

theorem firstOccs_replicate (n : Nat) (v : Int) :
    firstOccs (List.replicate (n + 1) v) = [v] := by
  rw [List.replicate_succ]
  simp only [firstOccs]
  have hfil : (firstOccs (List.replicate n v)).filter (fun y => decide (y ≠ v)) = [] := by
    refine List.filter_eq_nil_iff.2 ?_
    intro a ha
    have hv := List.eq_of_mem_replicate (mem_firstOccs.1 ha)
    simp [hv]
  rw [hfil]

theorem le_foldl_max (xs : List Int) (a : Int) : a ≤ xs.foldl max a := by
  induction xs generalizing a with
  | nil => exact le_refl a
  | cons x xs ih => exact le_trans (le_max_left a x) (ih (max a x))

theorem foldl_max_le_of_mem {x : Int} {xs : List Int} (h : x ∈ xs) (a : Int) :
    x ≤ xs.foldl max a := by
  induction xs generalizing a with
  | nil => cases h
  | cons y ys ih =>
    rcases List.mem_cons.1 h with rfl | hy
    · exact le_trans (le_max_right a x) (le_foldl_max ys (max a x))
    · exact ih hy (max a y)

theorem foldl_max_mem (xs : List Int) (a : Int) :
    xs.foldl max a = a ∨ xs.foldl max a ∈ xs := by
  induction xs generalizing a with
  | nil => exact Or.inl rfl
  | cons y ys ih =>
    rcases ih (max a y) with h | h
    · rcases max_choice a y with hm | hm
      · exact Or.inl (by rw [List.foldl_cons, h, hm])
      · exact Or.inr (by rw [List.foldl_cons, h, hm]; exact List.mem_cons_self y ys)
    · exact Or.inr (List.mem_cons_of_mem y h)

theorem maxOf_mem {l : List Int} (h : l ≠ []) : maxOf l ∈ l := by
  cases l with
  | nil => exact absurd rfl h
  | cons x xs =>
    rcases foldl_max_mem xs x with h' | h'
    · rw [maxOf, h']; exact List.mem_cons_self x xs
    · exact List.mem_cons_of_mem x h'

theorem le_maxOf {l : List Int} {x : Int} (h : x ∈ l) : x ≤ maxOf l := by
  cases l with
  | nil => cases h
  | cons y ys =>
    rcases List.mem_cons.1 h with rfl | hy
    · exact le_foldl_max ys x
    · exact foldl_max_le_of_mem hy y

theorem pickFold_mem (l : List Int) (xs : List Int) (b : Int) :
    xs.foldl (fun b y => if l.count b < l.count y then y else b) b ∈ b :: xs := by
  induction xs generalizing b with
  | nil => exact List.mem_cons_self b []
  | cons y ys ih =>
    rw [List.foldl_cons]
    by_cases hc : l.count b < l.count y
    · rw [if_pos hc]
      exact List.mem_cons_of_mem b (ih y)
    · rw [if_neg hc]
      rcases List.mem_cons.1 (ih b) with h | h
      · rw [h]
        exact List.mem_cons_self b (y :: ys)
      · exact List.mem_cons_of_mem b (List.mem_cons_of_mem y h)

theorem pickFold_count (l : List Int) (xs : List Int) (b : Int) :
    l.count b ≤ l.count (xs.foldl (fun b y => if l.count b < l.count y then y else b) b)
    ∧ ∀ y ∈ xs,
        l.count y ≤ l.count (xs.foldl (fun b y => if l.count b < l.count y then y else b) b) := by
  induction xs generalizing b with
  | nil => exact ⟨le_refl _, by intro y hy; cases hy⟩
  | cons y ys ih =>
    rw [List.foldl_cons]
    have hb : l.count b ≤ l.count (if l.count b < l.count y then y else b) := by
      by_cases hc : l.count b < l.count y
      · rw [if_pos hc]; exact le_of_lt hc
      · rw [if_neg hc]
    have hy : l.count y ≤ l.count (if l.count b < l.count y then y else b) := by
      by_cases hc : l.count b < l.count y
      · rw [if_pos hc]
      · rw [if_neg hc]; omega
    obtain ⟨h1, h2⟩ := ih (if l.count b < l.count y then y else b)
    refine ⟨le_trans hb h1, ?_⟩
    intro z hz
    rcases List.mem_cons.1 hz with rfl | hz'
    · exact le_trans hy h1
    · exact h2 z hz'

theorem mostCommonD_mem {l : List Int} (h : l ≠ []) : mostCommonD l ∈ l := by
  unfold mostCommonD
  split
  · next heq => exact absurd (firstOccs_eq_nil.1 heq) h
  · next x xs heq =>
    have hm := pickFold_mem l xs x
    rw [← heq] at hm
    exact mem_firstOccs.1 hm

theorem count_le_mostCommonD {l : List Int} {x : Int} (hx : x ∈ l) :
    l.count x ≤ l.count (mostCommonD l) := by
  unfold mostCommonD
  split
  · next heq =>
    exact absurd (firstOccs_eq_nil.1 heq) (by rintro rfl; cases hx)
  · next y ys heq =>
    have hx' : x ∈ y :: ys := by rw [← heq]; exact mem_firstOccs.2 hx
    obtain ⟨h1, h2⟩ := pickFold_count l ys y
    rcases List.mem_cons.1 hx' with rfl | hmem
    · exact h1
    · exact h2 x hmem

theorem count3_le (l : List Int) (a b c : Int) (hab : a ≠ b) (hac : a ≠ c) (hbc : b ≠ c) :
    l.count a + l.count b + l.count c ≤ l.length := by
  induction l with
  | nil => simp
  | cons x xs ih =>
    rw [List.length_cons]
    by_cases hxa : a = x
    · have hbx : b ≠ x := fun h => hab (hxa.trans h.symm)
      have hcx : c ≠ x := fun h => hac (hxa.trans h.symm)
      rw [hxa, List.count_cons_self, List.count_cons_of_ne hbx, List.count_cons_of_ne hcx]
      rw [hxa] at ih
      omega
    · by_cases hxb : b = x
      · have hcx : c ≠ x := fun h => hbc (hxb.trans h.symm)
        rw [hxb, List.count_cons_self, List.count_cons_of_ne hxa, List.count_cons_of_ne hcx]
        rw [hxb] at ih
        omega
      · by_cases hxc : c = x
        · rw [hxc, List.count_cons_self, List.count_cons_of_ne hxa, List.count_cons_of_ne hxb]
          rw [hxc] at ih
          omega
        · rw [List.count_cons_of_ne hxa, List.count_cons_of_ne hxb, List.count_cons_of_ne hxc]
          omega

example : check_consensus [5, 5, 5] = ("consensus", some 5, none) := by decide
example : check_consensus [5, 8, 13] = ("divergence", some 13, some 8) := by decide
example : check_consensus [3, 3, 8] = ("divergence", some 8, some 3) := by decide
example : check_consensus [5, 5, 8] = ("near_consensus", some 5, none) := by decide
example : check_consensus [] = ("divergence", none, none) := by decide
example : check_consensus [2, 2, 3] = ("near_consensus", some 2, none) := by decide

/-- C1 (amended): `check_consensus` always returns an outcome among
`consensus`, `near_consensus` and `divergence` (the code has a third
outcome the claim omits); on every non-empty all-equal list it returns
`(consensus, that value, none)`, and on `[]` it returns
`(divergence, none, none)`. -/
theorem check_consensus_classification :
    (∀ l : List Int, (check_consensus l).1 = "consensus" ∨
      (check_consensus l).1 = "near_consensus" ∨ (check_consensus l).1 = "divergence")
    ∧ (∀ (v : Int) (n : Nat),
        check_consensus (List.replicate (n + 1) v) = ("consensus", some v, none))
    ∧ check_consensus [] = ("divergence", none, none) := by
  refine ⟨?_, ?_, rfl⟩
  · intro l
    unfold check_consensus
    split
    · exact Or.inr (Or.inr rfl)
    · split
      · exact Or.inl rfl
      · split
        · split
          · exact Or.inr (Or.inl rfl)
          · exact Or.inr (Or.inr rfl)
        · exact Or.inr (Or.inr rfl)
  · intro v n
    have h1 : firstOccs (List.replicate (n + 1) v) = [v] := firstOccs_replicate n v
    have h2 : List.replicate (n + 1) v = v :: List.replicate n v := List.replicate_succ v n
    unfold check_consensus
    rw [if_neg (by simp [h2]), h1]
    simp [h2]

/-- C1 counterexample: on `[5, 5, 8]` the code returns the outcome
`near_consensus`, which is neither `consensus` nor `divergence`, refuting
the claim that every non-empty input yields one of those two outcomes. -/
theorem check_consensus_third_outcome :
    check_consensus [5, 5, 8] = ("near_consensus", some 5, none)
    ∧ ("near_consensus" : String) ≠ "consensus"
    ∧ ("near_consensus" : String) ≠ "divergence" :=
  ⟨by decide, by decide, by decide⟩

/-- The first element (x ≠ m) found in a list all of whose non-`m`
elements equal `o`. -/
theorem find?_ne_eq {m o : Int} (hom : o ≠ m) :
    ∀ (L : List Int), (∀ x ∈ L, x ≠ m → x = o) → o ∈ L →
      L.find? (fun x => !decide (x = m)) = some o := by
  intro L
  induction L with
  | nil => intro _ h; cases h
  | cons a as ih =>
    intro hall hmem
    by_cases ha : a = m
    · have hoas : o ∈ as := by
        rcases List.mem_cons.1 hmem with rfl | h
        · exact absurd ha hom
        · exact h
      rw [List.find?_cons, ha]
      simpa using ih (fun x hx => hall x (List.mem_cons_of_mem a hx)) hoas
    · have hao : a = o := hall a (List.mem_cons_self a as) ha
      rw [List.find?_cons]
      simp [hao, hom]

/-- C3: when at least two votes are cast, they are not all equal, the most
common value accounts for all but one vote, and both the most common value
and the outlier sit at adjacent indices of `FIBONACCI`, `check_consensus`
returns `(near_consensus, most common value, none)`. -/
theorem check_consensus_near_consensus (l : List Int) (o : Int)
    (hlen : 2 ≤ l.length)
    (hdist : 2 ≤ (firstOccs l).length)
    (hcnt : l.count (mostCommonD l) = l.length - 1)
    (ho : o ∈ l) (hom : o ≠ mostCommonD l)
    (i j : Nat)
    (hi : listIndex? (mostCommonD l) FIBONACCI = some i)
    (hj : listIndex? o FIBONACCI = some j)
    (hadj : i = j + 1 ∨ j = i + 1) :
    check_consensus l = ("near_consensus", some (mostCommonD l), none) := by
  have hne : l ≠ [] := by
    intro h; rw [h] at hlen; simp at hlen
  -- every vote different from the most common value is the single outlier
  have hall : ∀ x ∈ l, x ≠ mostCommonD l → x = o := by
    intro x hx hxm
    by_contra hxo
    have h3 := count3_le l (mostCommonD l) o x (Ne.symm hom) (fun h => hxm h.symm)
      (fun h => hxo h.symm)
    have hco : 1 ≤ l.count o := List.count_pos_iff.2 ho
    have hcx : 1 ≤ l.count x := List.count_pos_iff.2 hx
    omega
  have hfo : (firstOccs l).find? (fun x => !decide (x = mostCommonD l)) = some o :=
    find?_ne_eq hom (firstOccs l)
      (fun x hx => hall x (mem_firstOccs.1 hx)) (mem_firstOccs.2 ho)
  have hnat : ((i : Int) - (j : Int)).natAbs = 1 := by omega
  have hnear : nearCheck l = some (mostCommonD l) := by
    unfold nearCheck
    rw [if_pos hcnt]
    simp [hfo, hi, hj, hnat]
  unfold check_consensus
  rw [if_neg hne, if_neg (by omega), if_pos hlen, hnear]

/-- C3 witness: `[3, 3, 3, 5]` — three votes of 3 and one outlier 5,
with 3 and 5 adjacent on the Fibonacci scale. -/
theorem check_consensus_near_consensus_witness :
    check_consensus [3, 3, 3, 5] = ("near_consensus", some 3, none) := by
  have h := check_consensus_near_consensus [3, 3, 3, 5] 5 (by decide) (by decide)
    (by decide) (by decide) (by decide) 3 4 (by decide) (by decide) (Or.inr rfl)
  simpa using h

/-! Structure of `sortedUniqueDesc`. -/

theorem sortedUniqueDesc_perm (l : List Int) :
    List.Perm (sortedUniqueDesc l) (firstOccs l) :=
  List.perm_insertionSort geInt (firstOccs l)

theorem sortedUniqueDesc_sorted (l : List Int) : List.Sorted geInt (sortedUniqueDesc l) :=
  List.sorted_insertionSort geInt (firstOccs l)

theorem mem_sortedUniqueDesc {l : List Int} {x : Int} :
    x ∈ sortedUniqueDesc l ↔ x ∈ l :=
  ((sortedUniqueDesc_perm l).mem_iff).trans mem_firstOccs

theorem sortedUniqueDesc_nodup (l : List Int) : (sortedUniqueDesc l).Nodup :=
  ((sortedUniqueDesc_perm l).nodup_iff).2 (nodup_firstOccs l)

/-- C2 (amended): on input with at least two distinct values on which the
near-consensus rule does not fire, `check_consensus` returns
`(divergence, highest value, some alternative)`; the alternative is the
most frequent value when that value differs from the highest and occurs
more than once, and otherwise the second-highest distinct value (the
largest vote strictly below the highest). -/
theorem check_consensus_divergence_branch (l : List Int)
    (hdist : 2 ≤ (firstOccs l).length) (hnear : nearCheck l = none) :
    ∃ alt : Int,
      check_consensus l = ("divergence", some (maxOf l), some alt)
      ∧ ((mostCommonD l ≠ maxOf l ∧ 1 < l.count (mostCommonD l)) → alt = mostCommonD l)
      ∧ (¬(mostCommonD l ≠ maxOf l ∧ 1 < l.count (mostCommonD l)) →
          alt ∈ l ∧ alt < maxOf l ∧ ∀ x ∈ l, x < maxOf l → x ≤ alt) := by
  have hlen : 2 ≤ l.length := le_trans hdist (length_firstOccs_le l)
  have hne : l ≠ [] := by intro h; rw [h] at hlen; simp at hlen
  have hcc : check_consensus l = divergenceResult l := by
    unfold check_consensus
    rw [if_neg hne, if_neg (by omega), if_pos hlen, hnear]
  rw [hcc]
  unfold divergenceResult calculate_alternative_value
  rw [if_neg (by omega)]
  by_cases hcase : mostCommonD l ≠ maxOf l ∧ 1 < l.count (mostCommonD l)
  · rw [if_pos hcase]
    exact ⟨mostCommonD l, rfl, fun _ => rfl, fun h => absurd hcase h⟩
  · rw [if_neg hcase]
    have hsulen : (sortedUniqueDesc l).length = (firstOccs l).length :=
      (sortedUniqueDesc_perm l).length_eq
    have hsu2 : 2 ≤ (sortedUniqueDesc l).length := by omega
    obtain ⟨a, b, t, hsu⟩ : ∃ a b t, sortedUniqueDesc l = a :: b :: t := by
      rcases hsu : sortedUniqueDesc l with _ | ⟨a, _ | ⟨b, t⟩⟩
      · rw [hsu] at hsu2; simp at hsu2
      · rw [hsu] at hsu2; simp at hsu2
      · exact ⟨a, b, t, rfl⟩
    rw [if_pos hsu2, hsu]
    have hget : (a :: b :: t)[1]? = some b := by simp
    rw [hget]
    refine ⟨b, rfl, fun h => absurd h hcase, fun _ => ?_⟩
    have hsorted := sortedUniqueDesc_sorted l
    rw [hsu] at hsorted
    rw [List.sorted_cons] at hsorted
    obtain ⟨hafirst, hsorted'⟩ := hsorted
    rw [List.sorted_cons] at hsorted'
    obtain ⟨hbfirst, _⟩ := hsorted'
    have hamem : a ∈ l := mem_sortedUniqueDesc.1 (by rw [hsu]; exact List.mem_cons_self a _)
    have hbmem : b ∈ l := mem_sortedUniqueDesc.1
      (by rw [hsu]; exact List.mem_cons_of_mem a (List.mem_cons_self b t))
    -- the head of the descending sorted distinct list is the maximum
    have hamax : a = maxOf l := by
      have h1 : a ≤ maxOf l := le_maxOf hamem
      have h2 : maxOf l ≤ a := by
        have hmm : maxOf l ∈ sortedUniqueDesc l := mem_sortedUniqueDesc.2 (maxOf_mem hne)
        rw [hsu] at hmm
        rcases List.mem_cons.1 hmm with h | h
        · omega
        · exact hafirst (maxOf l) h
      omega
    have hnd := sortedUniqueDesc_nodup l
    rw [hsu] at hnd
    have hab : a ≠ b := by
      intro h
      exact (List.nodup_cons.1 hnd).1 (h ▸ List.mem_cons_self b t)
    refine ⟨hbmem, ?_, ?_⟩
    · have hba : b ≤ a := hafirst b (List.mem_cons_self b t)
      have hba' : b ≠ a := fun h => hab h.symm
      rw [← hamax]
      omega
    · intro x hx hxlt
      have hxmem : x ∈ sortedUniqueDesc l := mem_sortedUniqueDesc.2 hx
      rw [hsu] at hxmem
      rcases List.mem_cons.1 hxmem with rfl | hxm
      · omega
      · rcases List.mem_cons.1 hxm with rfl | hxt
        · exact le_refl x
        · exact hbfirst x hxt

/-- C2 counterexample: `[2, 2, 3]` has two distinct values, yet
`check_consensus` classifies it `near_consensus`, not `divergence` with the
highest value, refuting the claim for inputs that trigger the code's
near-consensus rule. -/
theorem check_consensus_divergence_refuted :
    2 ≤ (firstOccs [2, 2, 3]).length
    ∧ check_consensus [2, 2, 3] = ("near_consensus", some 2, none)
    ∧ (check_consensus [2, 2, 3]).1 ≠ "divergence" :=
  ⟨by decide, by decide, by decide⟩

/-- C2 witness: `[5, 8, 13]` (the spec's own example) — three distinct
values, near-consensus does not fire, highest is 13 and the second-highest
distinct value 8 becomes the alternative. -/
theorem check_consensus_divergence_branch_witness :
    check_consensus [5, 8, 13] = ("divergence", some 13, some 8) := by
  obtain ⟨alt, h1, _, h3⟩ :=
    check_consensus_divergence_branch [5, 8, 13] (by decide) (by decide)
  obtain ⟨hmem, hlt, hmax⟩ := h3 (by decide)
  have halt : alt = 8 := by
    have h8 : (8 : Int) ≤ alt := hmax 8 (by decide) (by decide)
    have hmax13 : maxOf [5, 8, 13] = 13 := by decide
    rw [hmax13] at hlt
    simp only [List.mem_cons, List.not_mem_nil, or_false] at hmem
    rcases hmem with rfl | rfl | rfl <;> omega
  rw [halt] at h1
  have hmax13 : maxOf [5, 8, 13] = 13 := by decide
  rw [hmax13] at h1
  exact h1

example : extract_story_points ("STORY POINTS: 4".toList) = 5 := by decide
example : extract_story_points ("STORY POINTS: 9".toList) = 13 := by decide
example : extract_story_points ("STORY POINTS: 1".toList) = 1 := by decide
example : extract_story_points ("STORY POINTS: 21".toList) = 21 := by decide
example : extract_story_points ("no label here".toList) = 5 := by decide
example : extract_story_points ("  7 things".toList) = 7 := by decide

/-- The first element of a `≤`-sorted list satisfying `n ≤ ·` is the least
element that is `≥ n`. -/
theorem findGE_spec {n : Nat} :
    ∀ {L : List Nat}, List.Sorted (· ≤ ·) L →
      ∀ {f0 : Nat}, L.find? (fun f => decide (n ≤ f)) = some f0 →
        f0 ∈ L ∧ n ≤ f0 ∧ ∀ f ∈ L, n ≤ f → f0 ≤ f := by
  intro L
  induction L with
  | nil => intro _ f0 h; simp at h
  | cons a as ih =>
    intro hs f0 hf
    rw [List.find?_cons] at hf
    by_cases hna : n ≤ a
    · simp [hna] at hf
      subst hf
      refine ⟨List.mem_cons_self _ _, hna, ?_⟩
      intro f hfm _
      rcases List.mem_cons.1 hfm with rfl | hfa
      · exact le_refl _
      · exact (List.sorted_cons.1 hs).1 f hfa
    · simp [hna] at hf
      obtain ⟨hm, hnf0, hmin⟩ := ih (List.sorted_cons.1 hs).2 hf
      refine ⟨List.mem_cons_of_mem a hm, hnf0, ?_⟩
      intro f hfm hnf
      rcases List.mem_cons.1 hfm with rfl | hfa
      · exact absurd hnf hna
      · exact hmin f hfa hnf

/-- C4 (amended): `extract_story_points` always returns an integer; a
labeled value on the scale is returned as-is; a labeled value off the scale
but `≤ 89` snaps to the least scale value that is `≥` it (never downward);
a labeled value above 89 is clamped down to 89; with no labeled value it
falls back to the leading integer of the text, then to the default 5. -/
theorem extract_story_points_spec (l : List Char) :
    (∀ n, searchLabeled l = some n →
        (n ∈ fibScale → extract_story_points l = n)
        ∧ (n ∉ fibScale → n ≤ 89 →
            extract_story_points l ∈ fibScale ∧ n ≤ extract_story_points l
            ∧ ∀ f ∈ fibScale, n ≤ f → extract_story_points l ≤ f)
        ∧ (89 < n → extract_story_points l = 89))
    ∧ (searchLabeled l = none →
        (∀ m, leadingInt l = some m → extract_story_points l = m)
        ∧ (leadingInt l = none → extract_story_points l = 5)) := by
  constructor
  · intro n hn
    refine ⟨?_, ?_, ?_⟩
    · intro hmem
      simp only [extract_story_points, hn]
      rw [if_pos hmem]
    · intro hmem h89
      have hsorted : List.Sorted (· ≤ ·) fibScale := by decide
      obtain ⟨f0, hf0⟩ : ∃ f0, fibScale.find? (fun f => decide (n ≤ f)) = some f0 := by
        rcases hcase : fibScale.find? (fun f => decide (n ≤ f)) with _ | f0
        · exfalso
          have h := List.find?_eq_none.1 hcase 89 (by decide)
          simp at h
          omega
        · exact ⟨f0, rfl⟩
      obtain ⟨hf0mem, hnf0, hf0min⟩ := findGE_spec hsorted hf0
      have hext : extract_story_points l = f0 := by
        simp only [extract_story_points, hn]
        rw [if_neg hmem, hf0]
      rw [hext]
      exact ⟨hf0mem, hnf0, hf0min⟩
    · intro h89
      have hall : ∀ f ∈ fibScale, f ≤ 89 := by decide
      have hnot : n ∉ fibScale := fun hmem => by have := hall n hmem; omega
      have hnone : fibScale.find? (fun f => decide (n ≤ f)) = none := by
        refine List.find?_eq_none.2 ?_
        intro f hf
        have := hall f hf
        simp
        omega
      simp only [extract_story_points, hn]
      rw [if_neg hnot, hnone]
      decide
  · intro hn
    constructor
    · intro m hm
      simp [extract_story_points, hn, hm]
    · intro hm
      simp [extract_story_points, hn, hm]

/-- C4 counterexample: a labeled value of 100 is off the scale, and the
code returns 89, which is smaller — an equal-or-larger scale value does
not exist, so the "never snaps downward" claim fails there. -/
theorem extract_story_points_snaps_down :
    searchLabeled "STORY POINTS: 100".toList = some 100
    ∧ (100 : Nat) ∉ fibScale
    ∧ extract_story_points "STORY POINTS: 100".toList = 89
    ∧ ¬(100 ≤ extract_story_points "STORY POINTS: 100".toList) := by
  refine ⟨by decide, by decide, by decide, by decide⟩

/-- C5: `FixedSizeChunking(5, 3).chunk("abc defghij")` never terminates:
the window end backs off to the space at offset 3, and `end - overlap`
puts the next window start back at 0, so the loop guard stays true for
every amount of fuel.  This refutes termination for all `chunk_size > 0`,
`overlap ≥ 0`; the code loops forever on this input. -/
theorem fixedSizeChunk_nonterminating :
    fixedSizeChunkDiverges 5 3 ("abc defghij".toList)
    ∧ ∀ fuel : Nat, fixedSizeChunk 5 3 ("abc defghij".toList) fuel = none := by
  have key : fixedSizeChunkDiverges 5 3 ("abc defghij".toList) := by
    intro fuel
    induction fuel with
    | zero => intro index acc; rfl
    | succ f ih =>
      intro index acc
      have hstep : fixedChunkLoop 5 3 ("abc defghij".toList) (f + 1) 0 index acc
          = fixedChunkLoop 5 3 ("abc defghij".toList) f 0 (index + 1)
              (acc ++ [⟨"abc".toList, index, 0, 3⟩]) := rfl
      rw [hstep]
      exact ih (index + 1) (acc ++ [⟨"abc".toList, index, 0, 3⟩])
  refine ⟨key, fun fuel => ?_⟩
  have hentry : fixedSizeChunk 5 3 ("abc defghij".toList) fuel
      = fixedChunkLoop 5 3 ("abc defghij".toList) fuel 0 0 [] := rfl
  rw [hentry]
  exact key fuel 0 []

/-- C4 witness: the labeled off-scale value 4 snaps up to 5. -/
theorem extract_story_points_spec_witness :
    extract_story_points "STORY POINTS: 4".toList ∈ fibScale
    ∧ extract_story_points "STORY POINTS: 4".toList = 5 := by
  have h := (extract_story_points_spec "STORY POINTS: 4".toList).1 4 (by decide)
  obtain ⟨-, h2, -⟩ := h
  obtain ⟨hmem, hge, hmin⟩ := h2 (by decide) (by decide)
  have h5 : extract_story_points "STORY POINTS: 4".toList ≤ 5 := hmin 5 (by decide) (by decide)
  refine ⟨hmem, ?_⟩
  simp only [fibScale, List.mem_cons, List.not_mem_nil, or_false] at hmem
  rcases hmem with h | h | h | h | h | h | h | h | h | h <;> omega

/-! Properties of `collapseWS` and `pyStrip` (for C10). -/

theorem collapseWS_ws_eq : ∀ (l : List Char), ∀ c ∈ collapseWS l,
    isPySpace c = true → c = ' '
  | [] => by simp [collapseWS]
  | [d] => by
    intro c hc hws
    simp only [collapseWS, List.mem_singleton] at hc
    by_cases hd : isPySpace d = true
    · rw [if_pos hd] at hc
      exact hc
    · rw [if_neg hd] at hc
      subst hc
      exact absurd hws hd
  | a :: b :: rest => by
    intro c hc hws
    simp only [collapseWS] at hc
    by_cases hab : (isPySpace a && isPySpace b) = true
    · rw [if_pos hab] at hc
      exact collapseWS_ws_eq (b :: rest) c hc hws
    · rw [if_neg hab] at hc
      rcases List.mem_cons.1 hc with rfl | hc'
      · by_cases ha : isPySpace a = true
        · rw [if_pos ha]
        · rw [if_neg ha] at hws ⊢
          exact absurd hws ha
      · exact collapseWS_ws_eq (b :: rest) c hc' hws

theorem collapseWS_head_not_ws : ∀ (b : Char) (rest : List Char),
    isPySpace b = false → (collapseWS (b :: rest)).head? = some b
  | b, [], hb => by simp [collapseWS, hb]
  | b, c :: rest, hb => by
    simp only [collapseWS]
    rw [if_neg (by rw [hb]; simp)]
    rw [if_neg (by rw [hb]; simp)]
    rfl

theorem collapseWS_chain : ∀ (l : List Char),
    List.Chain' (fun a b => ¬(isPySpace a = true ∧ isPySpace b = true)) (collapseWS l)
  | [] => by simp [collapseWS]
  | [c] => by simp [collapseWS]
  | a :: b :: rest => by
    simp only [collapseWS]
    by_cases hab : (isPySpace a && isPySpace b) = true
    · rw [if_pos hab]
      exact collapseWS_chain (b :: rest)
    · rw [if_neg hab]
      rw [List.chain'_cons']
      refine ⟨?_, collapseWS_chain (b :: rest)⟩
      intro y hy
      by_cases ha : isPySpace a = true
      · have hb : isPySpace b = false := by
          cases hx : isPySpace b
          · rfl
          · exact absurd (by rw [ha, hx]; rfl) hab
        have hhead := collapseWS_head_not_ws b rest hb
        rw [hhead] at hy
        have hyb : y = b := by simpa using hy.symm
        rintro ⟨-, h2⟩
        rw [hyb] at h2
        rw [h2] at hb
        cases hb
      · rw [if_neg ha]
        rintro ⟨h1, -⟩
        exact ha h1

theorem noCollapsedWS_collapseWS (l : List Char) : noCollapsedWS (collapseWS l) := by
  refine ⟨collapseWS_ws_eq l, ?_⟩
  refine (collapseWS_chain l).imp ?_
  intro a b h hab
  exact h ⟨by rw [hab.1]; rfl, by rw [hab.2]; rfl⟩

theorem noCollapsedWS_suffix {l l' : List Char} (h : noCollapsedWS l)
    (hs : l' <:+ l) : noCollapsedWS l' := by
  refine ⟨fun c hc => h.1 c (hs.subset hc), h.2.suffix hs⟩

theorem noCollapsedWS_reverse {l : List Char} (h : noCollapsedWS l) :
    noCollapsedWS l.reverse := by
  refine ⟨fun c hc => h.1 c (List.mem_reverse.1 hc), ?_⟩
  rw [List.chain'_reverse]
  refine h.2.imp ?_
  intro a b hr hab
  exact hr ⟨hab.2, hab.1⟩

theorem noCollapsedWS_pyStrip {l : List Char} (h : noCollapsedWS l) :
    noCollapsedWS (pyStrip l) := by
  unfold pyStrip
  refine noCollapsedWS_reverse (noCollapsedWS_suffix (noCollapsedWS_reverse
    (noCollapsedWS_suffix h (List.dropWhile_suffix _))) (List.dropWhile_suffix _))

/-- C10: `clean_text` returns `""` on empty input (the falsy guard also
covers `None`), is total on all inputs (never raises), and with
`preserve_structure = false` the decoded, tag-stripped text has every
whitespace run collapsed: the output contains no whitespace character
other than a space and no two adjacent spaces — for every entity decoder
`unesc` in place of `html.unescape`. -/
theorem clean_text_spec :
    (∀ (unesc : List Char → List Char) (ps : Bool), clean_text unesc [] ps = [])
    ∧ ∀ (unesc : List Char → List Char) (text : List Char),
        noCollapsedWS (clean_text unesc text false) := by
  constructor
  · intro unesc ps
    simp [clean_text]
  · intro unesc text
    by_cases ht : text = []
    · rw [ht]
      simp only [clean_text, if_pos rfl]
      exact ⟨by simp, by simp⟩
    · simp only [clean_text, if_neg ht, Bool.false_eq_true, if_false]
      exact noCollapsedWS_pyStrip (noCollapsedWS_collapseWS _)

/-- C10 witness: a concrete instance of the collapse property. -/
theorem clean_text_spec_witness :
    noCollapsedWS (clean_text (fun t => t) ("a  <b>b\n\nc".toList) false) :=
  clean_text_spec.2 (fun t => t) ("a  <b>b\n\nc".toList)

/-! Byte round-trip for embeddings (C8). -/

theorem encode_embedding_length : ∀ v : List Nat,
    (encode_embedding v).length = 4 * v.length
  | [] => rfl
  | x :: xs => by
    simp only [encode_embedding, List.length_append, List.length_cons,
      encode_embedding_length xs, f32ToBytes]
    simp
    omega

theorem groups4_length : ∀ bs : List Nat, (groups4 bs).length = bs.length / 4
  | [] => rfl
  | [b] => by
    rw [show groups4 [b] = [] from rfl]
    simp only [List.length_nil, List.length_cons]
  | [b, c] => by
    rw [show groups4 [b, c] = [] from rfl]
    simp only [List.length_nil, List.length_cons]
  | [b, c, d] => by
    rw [show groups4 [b, c, d] = [] from rfl]
    simp only [List.length_nil, List.length_cons]
  | b :: c :: d :: e :: rest => by
    simp only [groups4, List.length_cons, groups4_length rest]
    omega

theorem groups4_map_encode : ∀ (v : List Nat), (∀ x ∈ v, x < 4294967296) →
    (groups4 (encode_embedding v)).map word32OfBytes = v
  | [], _ => rfl
  | x :: xs, h => by
    have hx : x < 4294967296 := h x (List.mem_cons_self x xs)
    have hxs : ∀ y ∈ xs, y < 4294967296 := fun y hy => h y (List.mem_cons_of_mem x hy)
    have h1 : encode_embedding (x :: xs)
        = x % 256 :: x / 256 % 256 :: x / 65536 % 256 :: x / 16777216 % 256
            :: encode_embedding xs := rfl
    have h2 : groups4 (x % 256 :: x / 256 % 256 :: x / 65536 % 256 :: x / 16777216 % 256
          :: encode_embedding xs)
        = [x % 256, x / 256 % 256, x / 65536 % 256, x / 16777216 % 256]
            :: groups4 (encode_embedding xs) := rfl
    have h3 : word32OfBytes [x % 256, x / 256 % 256, x / 65536 % 256, x / 16777216 % 256]
        = x := by
      simp only [word32OfBytes]
      omega
    rw [h1, h2, List.map_cons, groups4_map_encode xs hxs, h3]

/-- C8: encoding a vector of float32 words as bytes and decoding reproduces
the vector exactly, with the decoded length equal to the original length;
the decoder infers the element count solely as byte length divided by 4. -/
theorem encode_decode_roundtrip (v : List Nat) (h : ∀ x ∈ v, x < 4294967296) :
    decode_embedding (encode_embedding v) = some v
    ∧ (encode_embedding v).length = 4 * v.length
    ∧ ∀ (bs res : List Nat), decode_embedding bs = some res → res.length = bs.length / 4 := by
  refine ⟨?_, encode_embedding_length v, ?_⟩
  · unfold decode_embedding
    rw [if_pos (by rw [encode_embedding_length v]; omega)]
    rw [groups4_map_encode v h]
  · intro bs res hbs
    unfold decode_embedding at hbs
    by_cases hmod : bs.length % 4 = 0
    · rw [if_pos hmod] at hbs
      have : res = (groups4 bs).map word32OfBytes := (Option.some.inj hbs).symm
      rw [this, List.length_map, groups4_length]
    · rw [if_neg hmod] at hbs
      cases hbs

/-- C8 witness: a three-element vector round-trips through bytes. -/
theorem encode_decode_roundtrip_witness :
    decode_embedding (encode_embedding [0, 4294967295, 305419896])
      = some [0, 4294967295, 305419896] :=
  (encode_decode_roundtrip [0, 4294967295, 305419896] (by decide)).1

/-! Cosine similarity (C7): bridging list sums to `Finset.range` sums, then
Cauchy–Schwarz. -/

theorem list_sum_eq_range (l : List ℝ) :
    l.sum = ∑ i ∈ Finset.range l.length, l.getD i 0 := by
  induction l with
  | nil => simp
  | cons x xs ih =>
    rw [List.sum_cons, List.length_cons, Finset.sum_range_succ']
    simp only [List.getD_cons_succ, List.getD_cons_zero]
    rw [ih]
    ring

theorem zipWith_mul_getD : ∀ (a b : List ℝ) (i : Nat),
    (List.zipWith (fun x y => x * y) a b).getD i 0 = a.getD i 0 * b.getD i 0
  | [], b, i => by simp
  | a :: as, [], i => by simp
  | a :: as, b :: bs, 0 => by simp
  | a :: as, b :: bs, i + 1 => by
    simp only [List.zipWith_cons_cons, List.getD_cons_succ]
    exact zipWith_mul_getD as bs i

theorem map_sq_getD : ∀ (a : List ℝ) (i : Nat),
    (a.map (fun x => x * x)).getD i 0 = a.getD i 0 * a.getD i 0
  | [], i => by simp
  | a :: as, 0 => by simp
  | a :: as, i + 1 => by
    simp only [List.map_cons, List.getD_cons_succ]
    exact map_sq_getD as i

theorem dotL_eq_range (a b : List ℝ) (h : a.length = b.length) :
    dotL a b = ∑ i ∈ Finset.range a.length, a.getD i 0 * b.getD i 0 := by
  rw [dotL, list_sum_eq_range, List.length_zipWith]
  have hmin : min a.length b.length = a.length := by omega
  rw [hmin]
  exact Finset.sum_congr rfl fun i _ => zipWith_mul_getD a b i

theorem sumSq_eq_range (a : List ℝ) :
    sumSq a = ∑ i ∈ Finset.range a.length, a.getD i 0 * a.getD i 0 := by
  rw [sumSq, list_sum_eq_range, List.length_map]
  exact Finset.sum_congr rfl fun i _ => map_sq_getD a i

theorem sumSq_nonneg (a : List ℝ) : 0 ≤ sumSq a := by
  rw [sumSq_eq_range]
  exact Finset.sum_nonneg fun i _ => mul_self_nonneg _

theorem magnitudeL_nonneg (a : List ℝ) : 0 ≤ magnitudeL a :=
  Real.sqrt_nonneg _

theorem dotL_le_mul_magnitude (a b : List ℝ) (h : a.length = b.length) :
    dotL a b ≤ magnitudeL a * magnitudeL b := by
  rw [dotL_eq_range a b h, magnitudeL, magnitudeL, sumSq_eq_range, sumSq_eq_range, ← h]
  have hcs := Real.sum_mul_le_sqrt_mul_sqrt (Finset.range a.length)
    (fun i => a.getD i 0) (fun i => b.getD i 0)
  simpa [pow_two] using hcs

theorem neg_mul_magnitude_le_dotL (a b : List ℝ) (h : a.length = b.length) :
    -(magnitudeL a * magnitudeL b) ≤ dotL a b := by
  rw [dotL_eq_range a b h, magnitudeL, magnitudeL, sumSq_eq_range, sumSq_eq_range, ← h]
  have hcs := Real.sum_mul_le_sqrt_mul_sqrt (Finset.range a.length)
    (fun i => -(a.getD i 0)) (fun i => b.getD i 0)
  have hneg : ∑ i ∈ Finset.range a.length, -(a.getD i 0) * b.getD i 0
      = -∑ i ∈ Finset.range a.length, a.getD i 0 * b.getD i 0 := by
    rw [← Finset.sum_neg_distrib]
    exact Finset.sum_congr rfl fun i _ => by ring
  have hsq : ∀ x : ℝ, (-x) ^ 2 = x ^ 2 := fun x => by ring
  rw [hneg] at hcs
  simp only [hsq] at hcs
  have hgoal := neg_le_of_neg_le hcs
  simpa [pow_two] using hgoal

/-- C7: `cosine_similarity` errors exactly when the lengths differ; under
equal lengths a zero-magnitude operand yields exactly 0.0 (no division by
zero), and every successful result lies in `[-1, 1]`. -/
theorem cosine_similarity_spec (a b : List ℝ) :
    (cosine_similarity a b = none ↔ a.length ≠ b.length)
    ∧ (a.length = b.length → magnitudeL a = 0 ∨ magnitudeL b = 0 →
        cosine_similarity a b = some 0)
    ∧ ∀ r, cosine_similarity a b = some r → -1 ≤ r ∧ r ≤ 1 := by
  refine ⟨⟨?_, ?_⟩, ?_, ?_⟩
  · intro h
    by_cases hl : a.length ≠ b.length
    · exact hl
    · exfalso
      unfold cosine_similarity at h
      rw [if_neg hl] at h
      by_cases hm : magnitudeL a = 0 ∨ magnitudeL b = 0
      · rw [if_pos hm] at h; cases h
      · rw [if_neg hm] at h; cases h
  · intro h
    unfold cosine_similarity
    rw [if_pos h]
  · intro hlen hm
    unfold cosine_similarity
    rw [if_neg (fun hc => hc hlen), if_pos hm]
  · intro r hr
    unfold cosine_similarity at hr
    by_cases hl : a.length ≠ b.length
    · rw [if_pos hl] at hr; cases hr
    · rw [if_neg hl] at hr
      have hlen : a.length = b.length := not_not.1 hl
      by_cases hm : magnitudeL a = 0 ∨ magnitudeL b = 0
      · rw [if_pos hm] at hr
        have : r = 0 := (Option.some.inj hr).symm
        rw [this]
        norm_num
      · rw [if_neg hm] at hr
        have hr' : r = dotL a b / (magnitudeL a * magnitudeL b) :=
          (Option.some.inj hr).symm
        push_neg at hm
        have hma : 0 < magnitudeL a :=
          lt_of_le_of_ne (magnitudeL_nonneg a) (Ne.symm hm.1)
        have hmb : 0 < magnitudeL b :=
          lt_of_le_of_ne (magnitudeL_nonneg b) (Ne.symm hm.2)
        have hpos : 0 < magnitudeL a * magnitudeL b := mul_pos hma hmb
        constructor
        · rw [hr', le_div_iff₀ hpos]
          have := neg_mul_magnitude_le_dotL a b hlen
          linarith
        · rw [hr', div_le_one hpos]
          exact dotL_le_mul_magnitude a b hlen

/-- C7 witness: equal-length vectors with a zero-magnitude operand give
exactly 0. -/
theorem cosine_similarity_spec_witness :
    cosine_similarity [(0 : ℝ)] [(1 : ℝ)] = some 0 := by
  have hm : magnitudeL [(0 : ℝ)] = 0 := by
    simp [magnitudeL, sumSq]
  exact (cosine_similarity_spec [(0 : ℝ)] [(1 : ℝ)]).2.1 rfl (Or.inl hm)

/-! Retrieval (C6): stability and ordering of the sort, the filter bound,
and the truncation. -/

theorem filter_orderedInsert (p : Nat × ℝ) (L : List (Nat × ℝ)) (s : ℝ) :
    (L.orderedInsert simRel p).filter (fun q => decide (q.2 = s))
    = if p.2 = s then p :: L.filter (fun q => decide (q.2 = s))
      else L.filter (fun q => decide (q.2 = s)) := by
  induction L with
  | nil =>
    by_cases hp : p.2 = s <;> simp [List.orderedInsert, hp]
  | cons b L ih =>
    rw [List.orderedInsert]
    by_cases hr : simRel p b
    · rw [if_pos hr]
      by_cases hp : p.2 = s <;> by_cases hb : b.2 = s <;>
        simp [List.filter_cons, hp, hb]
    · rw [if_neg hr]
      have hblt : p.2 < b.2 := not_le.1 hr
      by_cases hb : b.2 = s
      · have hp : ¬ p.2 = s := by
          intro h
          rw [h] at hblt
          rw [hb] at hblt
          exact lt_irrefl s hblt
        simp [List.filter_cons, hb, hp, ih]
      · by_cases hp : p.2 = s <;> simp [List.filter_cons, hb, hp, ih]

theorem filter_sortSims (L : List (Nat × ℝ)) (s : ℝ) :
    (sortSims L).filter (fun q => decide (q.2 = s))
      = L.filter (fun q => decide (q.2 = s)) := by
  induction L with
  | nil => rfl
  | cons p L ih =>
    rw [sortSims, List.insertionSort, filter_orderedInsert]
    rw [sortSims] at ih
    by_cases hp : p.2 = s <;> simp [List.filter_cons, hp, ih]

theorem collectSims_mem {q : List ℝ} {ms : ℝ} :
    ∀ {cands : List (Nat × List ℝ)} {sims : List (Nat × ℝ)},
      collectSims q ms cands = some sims → ∀ p ∈ sims, ms ≤ p.2 := by
  intro cands
  induction cands with
  | nil =>
    intro sims h p hp
    simp only [collectSims] at h
    rw [← Option.some.inj h] at hp
    cases hp
  | cons c rest ih =>
    intro sims h p hp
    rcases c with ⟨i, v⟩
    rcases hcos : cosine_similarity q v with _ | s0
    · simp only [collectSims, hcos] at h
      exact Option.noConfusion h
    · rcases hrec : collectSims q ms rest with _ | tl
      · simp only [collectSims, hcos, hrec] at h
        exact Option.noConfusion h
      · simp only [collectSims, hcos, hrec, Option.some.injEq] at h
        rw [← h] at hp
        by_cases hms : ms ≤ s0
        · rw [if_pos hms] at hp
          rcases List.mem_cons.1 hp with rfl | hp'
          · exact hms
          · exact ih hrec p hp'
        · rw [if_neg hms] at hp
          exact ih hrec p hp

theorem collectSims_total (q : List ℝ) (ms : ℝ) :
    ∀ {cands : List (Nat × List ℝ)},
      (∀ p ∈ cands, (p.2 : List ℝ).length = q.length) →
      ∃ sims, collectSims q ms cands = some sims := by
  intro cands
  induction cands with
  | nil => exact fun _ => ⟨[], rfl⟩
  | cons c rest ih =>
    intro h
    rcases c with ⟨i, v⟩
    have hv : v.length = q.length := h (i, v) (List.mem_cons_self _ _)
    have hcos : ∃ s0, cosine_similarity q v = some s0 := by
      unfold cosine_similarity
      rw [if_neg (by omega)]
      by_cases hm : magnitudeL q = 0 ∨ magnitudeL v = 0
      · exact ⟨0, if_pos hm⟩
      · exact ⟨_, if_neg hm⟩
    obtain ⟨s0, hs0⟩ := hcos
    obtain ⟨tl, htl⟩ := ih fun p hp => h p (List.mem_cons_of_mem _ hp)
    refine ⟨if ms ≤ s0 then (i, s0) :: tl else tl, ?_⟩
    simp only [collectSims, hs0, htl]

/-- C6: on every successful return, `find_similar_chunks` yields a list
sorted non-increasing by similarity, every kept similarity is
`≥ min_similarity`, and the length is at most `top_k`; the empty candidate
list gives `[]`, `top_k = 0` gives `[]`, ties keep the candidates' input
order (the sort preserves every equal-similarity class verbatim), and the
call succeeds whenever all candidate dimensions match the query. -/
theorem find_similar_chunks_spec (q : List ℝ) (cands : List (Nat × List ℝ))
    (topK : Nat) (ms : ℝ) :
    (∀ res, find_similar_chunks q cands topK ms = some res →
        res.length ≤ topK ∧ List.Sorted simRel res ∧ ∀ p ∈ res, ms ≤ p.2)
    ∧ find_similar_chunks q [] topK ms = some []
    ∧ (∀ res, find_similar_chunks q cands 0 ms = some res → res = [])
    ∧ (∀ sims, collectSims q ms cands = some sims →
        ∀ s : ℝ, (sortSims sims).filter (fun p => decide (p.2 = s))
          = sims.filter (fun p => decide (p.2 = s)))
    ∧ ((∀ p ∈ cands, (p.2 : List ℝ).length = q.length) →
        ∃ res, find_similar_chunks q cands topK ms = some res) := by
  refine ⟨?_, ?_, ?_, fun sims _ s => filter_sortSims sims s, ?_⟩
  · intro res hres
    unfold find_similar_chunks at hres
    rcases hcol : collectSims q ms cands with _ | sims
    · rw [hcol] at hres; cases hres
    · rw [hcol] at hres
      have hres' : res = (sortSims sims).take topK := (Option.some.inj hres).symm
      subst hres'
      refine ⟨List.length_take_le topK _, ?_, ?_⟩
      · exact List.Pairwise.sublist (List.take_sublist topK _)
          (List.sorted_insertionSort simRel sims)
      · intro p hp
        have hp1 : p ∈ sortSims sims := (List.take_sublist topK _).subset hp
        have hp2 : p ∈ sims := (List.perm_insertionSort simRel sims).subset hp1
        exact collectSims_mem hcol p hp2
  · have h0 : collectSims q ms ([] : List (Nat × List ℝ)) = some [] := by
      simp only [collectSims]
    simp only [find_similar_chunks, h0]
    simp [sortSims, List.insertionSort]
  · intro res hres
    unfold find_similar_chunks at hres
    rcases hcol : collectSims q ms cands with _ | sims
    · rw [hcol] at hres; cases hres
    · rw [hcol] at hres
      have : res = (sortSims sims).take 0 := (Option.some.inj hres).symm
      rw [this, List.take_zero]
  · intro h
    obtain ⟨sims, hsims⟩ := collectSims_total q ms h
    exact ⟨(sortSims sims).take topK, by simp only [find_similar_chunks, hsims]⟩

/-- C6 witness: one zero-magnitude candidate at threshold 0 is kept with
similarity exactly 0, sorted, within the length bound. -/
theorem find_similar_chunks_spec_witness :
    List.Sorted simRel [((7 : Nat), (0 : ℝ))]
    ∧ (∀ p ∈ [((7 : Nat), (0 : ℝ))], (0 : ℝ) ≤ p.2)
    ∧ [((7 : Nat), (0 : ℝ))].length ≤ 3 := by
  have hcos : cosine_similarity [(1 : ℝ)] [(0 : ℝ)] = some 0 := by
    have hm : magnitudeL [(0 : ℝ)] = 0 := by simp [magnitudeL, sumSq]
    exact (cosine_similarity_spec [(1 : ℝ)] [(0 : ℝ)]).2.1 rfl (Or.inr hm)
  have hcol : collectSims [(1 : ℝ)] (0 : ℝ) [((7 : Nat), [(0 : ℝ)])]
      = some [((7 : Nat), (0 : ℝ))] := by
    simp only [collectSims, hcos]
    rw [if_pos (le_refl (0 : ℝ))]
  have hfind : find_similar_chunks [(1 : ℝ)] [((7 : Nat), [(0 : ℝ)])] 3 0
      = some [((7 : Nat), (0 : ℝ))] := by
    simp only [find_similar_chunks, hcol]
    rfl
  obtain ⟨h1, h2, h3⟩ :=
    (find_similar_chunks_spec [(1 : ℝ)] [((7 : Nat), [(0 : ℝ)])] 3 0).1
      [((7 : Nat), (0 : ℝ))] hfind
  exact ⟨h2, h3, h1⟩

/-! Story-aware chunking (C9). -/

theorem mem_enumFrom_snd {α : Type} :
    ∀ (n : Nat) (l : List α) (x : Nat × α), x ∈ l.enumFrom n → x.2 ∈ l := by
  intro n l
  induction l generalizing n with
  | nil => intro x hx; cases hx
  | cons a as ih =>
    intro x hx
    rcases List.mem_cons.1 hx with rfl | hx'
    · exact List.mem_cons_self a as
    · exact List.mem_cons_of_mem a (ih (n + 1) x hx')

/-- Every emitted payload belongs to the section whose parse is nonempty,
and carries nonempty text. -/
theorem storyPreChunks_cases (cd : Bool) (ms : Nat) (text : List Char)
    (x : String × List Char × Option Nat) (hx : x ∈ storyPreChunks cd ms text) :
    x.2.1 ≠ [] ∧
      ((x.1 = "title" ∧ secNonempty (parseTitle text) = true)
      ∨ (x.1 = "description" ∧ secNonempty (parseDescription text) = true)
      ∨ (x.1 = "voting" ∧ secNonempty (parseVoting text) = true)
      ∨ (x.1 = "comments" ∧ secNonempty (parseComments text) = true)) := by
  unfold storyPreChunks at hx
  rw [List.mem_append] at hx
  rcases hx with hx | hcm
  · rw [List.mem_append] at hx
    rcases hx with hx | hv
    · rw [List.mem_append] at hx
      rcases hx with ht | hd
      · -- title block
        rcases hpt : parseTitle text with _ | t
        · rw [hpt] at ht; cases ht
        · simp only [hpt] at ht
          by_cases hne : t ≠ []
          · rw [if_pos hne] at ht
            rcases List.mem_cons.1 ht with rfl | h
            · refine ⟨by simp, Or.inl ⟨rfl, ?_⟩⟩
              simp only [secNonempty, hpt]
              simpa using hne
            · cases h
          · rw [if_neg hne] at ht; cases ht
      · -- description block
        rcases hpd : parseDescription text with _ | d
        · rw [hpd] at hd; cases hd
        · simp only [hpd] at hd
          by_cases hne : d ≠ []
          · rw [if_pos hne] at hd
            have hsec : secNonempty (some d) = true := by
              simp only [secNonempty]
              simpa using hne
            by_cases hsplit : cd = true ∧ ms < d.length
            · rw [if_pos hsplit] at hd
              rcases List.mem_map.1 hd with ⟨sc, _, rfl⟩
              exact ⟨by simp, Or.inr (Or.inl ⟨rfl, hsec⟩)⟩
            · rw [if_neg hsplit] at hd
              rcases List.mem_cons.1 hd with rfl | h
              · exact ⟨by simp, Or.inr (Or.inl ⟨rfl, hsec⟩)⟩
              · cases h
          · rw [if_neg hne] at hd; cases hd
    · -- voting block
      rcases hpv : parseVoting text with _ | v
      · rw [hpv] at hv; cases hv
      · simp only [hpv] at hv
        by_cases hne : v ≠ []
        · rw [if_pos hne] at hv
          rcases List.mem_cons.1 hv with rfl | h
          · refine ⟨by simp, Or.inr (Or.inr (Or.inl ⟨rfl, ?_⟩))⟩
            simp only [secNonempty, hpv]
            simpa using hne
          · cases h
        · rw [if_neg hne] at hv; cases hv
  · -- comments block
    rcases hpc : parseComments text with _ | cm
    · rw [hpc] at hcm; cases hcm
    · simp only [hpc] at hcm
      by_cases hne : cm ≠ []
      · rw [if_pos hne] at hcm
        rcases List.mem_cons.1 hcm with rfl | h
        · refine ⟨by simp, Or.inr (Or.inr (Or.inr ⟨rfl, ?_⟩))⟩
          simp only [secNonempty, hpc]
          simpa using hne
        · cases h
      · rw [if_neg hne] at hcm; cases hcm

/-- C9: the scenario `Title: Foo` + `Description: Bar` (no Voting or
Comments) yields exactly the two chunks `Title: Foo` and
`Description: Bar`; in general, an absent (or empty) section contributes
no chunk with its label, and no chunk ever has empty text. -/
theorem storyChunk_spec :
    storyChunk true 800 ("Title: Foo\nDescription: Bar".toList)
      = [⟨"Title: Foo".toList, 0, "title", none⟩,
         ⟨"Description: Bar".toList, 1, "description", none⟩]
    ∧ ∀ (cd : Bool) (ms : Nat) (text : List Char) (c : SChunk),
        c ∈ storyChunk cd ms text →
          c.text ≠ []
          ∧ (secNonempty (parseTitle text) = false → c.section_label ≠ "title")
          ∧ (secNonempty (parseDescription text) = false → c.section_label ≠ "description")
          ∧ (secNonempty (parseVoting text) = false → c.section_label ≠ "voting")
          ∧ (secNonempty (parseComments text) = false → c.section_label ≠ "comments") := by
  constructor
  · decide
  · intro cd ms text c hc
    unfold storyChunk at hc
    by_cases ht : text = []
    · rw [if_pos ht] at hc; cases hc
    · rw [if_neg ht] at hc
      rcases List.mem_map.1 hc with ⟨p, hp, rfl⟩
      have hpre : p.2 ∈ storyPreChunks cd ms text := mem_enumFrom_snd 0 _ p hp
      obtain ⟨htext, hcases⟩ := storyPreChunks_cases cd ms text p.2 hpre
      dsimp only
      refine ⟨htext, ?_, ?_, ?_, ?_⟩ <;> intro hfalse heq
      · rw [heq] at hcases
        rcases hcases with ⟨-, h⟩ | ⟨h, -⟩ | ⟨h, -⟩ | ⟨h, -⟩
        · rw [hfalse] at h; cases h
        · exact absurd h (by decide)
        · exact absurd h (by decide)
        · exact absurd h (by decide)
      · rw [heq] at hcases
        rcases hcases with ⟨h, -⟩ | ⟨-, h⟩ | ⟨h, -⟩ | ⟨h, -⟩
        · exact absurd h (by decide)
        · rw [hfalse] at h; cases h
        · exact absurd h (by decide)
        · exact absurd h (by decide)
      · rw [heq] at hcases
        rcases hcases with ⟨h, -⟩ | ⟨h, -⟩ | ⟨-, h⟩ | ⟨h, -⟩
        · exact absurd h (by decide)
        · exact absurd h (by decide)
        · rw [hfalse] at h; cases h
        · exact absurd h (by decide)
      · rw [heq] at hcases
        rcases hcases with ⟨h, -⟩ | ⟨h, -⟩ | ⟨h, -⟩ | ⟨-, h⟩
        · exact absurd h (by decide)
        · exact absurd h (by decide)
        · exact absurd h (by decide)
        · rw [hfalse] at h; cases h

/-- C9 witness: the title chunk of the scenario is a member of the output
and satisfies the per-chunk guarantees. -/
theorem storyChunk_spec_witness :
    (⟨"Title: Foo".toList, 0, "title", none⟩ : SChunk).text ≠ []
    ∧ (⟨"Title: Foo".toList, 0, "title", none⟩ : SChunk).section_label ≠ "voting" := by
  have hmem : (⟨"Title: Foo".toList, 0, "title", none⟩ : SChunk)
      ∈ storyChunk true 800 ("Title: Foo\nDescription: Bar".toList) := by
    rw [storyChunk_spec.1]
    exact List.mem_cons_self _ _
  obtain ⟨h1, -, -, h4, -⟩ := storyChunk_spec.2 true 800
    ("Title: Foo\nDescription: Bar".toList) _ hmem
  exact ⟨h1, h4 (by decide)⟩

end PlanningPoker
